import Mathlib

/-!
Verification of the Chat2DB column-list editor and panel-toggle components.

The definitions below are a shallow embedding of
src/chat2db-client/src/blocks/DatabaseTableEditor/ColumnList/index.tsx
and of the panel-toggle component (src/unnamed/part_000).  JavaScript
strings stand for themselves, uuidv4 calls are modelled by explicit fresh-key
parameters, and the JS findIndex result -1 is modelled by an Int (for the
drag handler, which feeds it to arrayMove) or by Option (for moveData, which
guards on -1 and returns early).
-/

/-- One row of the column editor, mirroring the IColumnItem records built by
createInitialData: a uuid key plus the twelve column fields, each nullable. -/
structure IColumnItem where
  key : String
  name : Option String
  columnSize : Option Int
  columnType : Option String
  nullable : Option Int
  comment : Option String
  primaryKey : Option Int
  defaultValue : Option String
  dataType : Option String
  autoIncrement : Option Int
  numericPrecision : Option Int
  numericScale : Option Int
  characterMaximumLength : Option Int
deriving Repr, DecidableEq

/-- createInitialData from ColumnList/index.tsx: a fresh uuid key (here the
explicit parameter) and every column field null. -/
def createInitialData (fresh : String) : IColumnItem :=
  { key := fresh
    name := none
    columnSize := none
    columnType := none
    nullable := none
    comment := none
    primaryKey := none
    defaultValue := none
    dataType := none
    autoIncrement := none
    numericPrecision := none
    numericScale := none
    characterMaximumLength := none }

/-- isEditing from ColumnList/index.tsx: a record is in edit mode exactly when
its key equals the current editingKey. -/
def isEditing (editingKey : String) (record : IColumnItem) : Bool :=
  record.key == editingKey

/-- JS Array.prototype.findIndex: index of the first element satisfying the
predicate, and -1 when none does. -/
def findIndexJs {α : Type} (p : α → Bool) (l : List α) : Int :=
  match l.findIdx? p with
  | some n => (n : Int)
  | none => -1

/-- JS Array.prototype.splice start-index normalisation: a negative start
counts back from the end (clamped to 0), a too-large start is clamped to the
length. -/
def spliceStart (len : Nat) (start : Int) : Nat :=
  if start < 0 then ((len : Int) + start).toNat else min start.toNat len

/-- arrayMove from the dnd-kit sortable package (the library function called
by onDragEnd): copies the array, removes the element at the from index with
splice(from, 1), and re-inserts it with splice(to0, 0, moved) where to0 is
computed against the pre-removal length when negative.  When splice removes
nothing (out-of-range from index) JS would insert undefined; that case is not
representable over a typed element list and the model returns the list
unchanged, a case no theorem below exercises. -/
def arrayMove {α : Type} (array : List α) (fromI toI : Int) : List α :=
  match array[spliceStart array.length fromI]? with
  | none => array
  | some moved =>
    (array.eraseIdx (spliceStart array.length fromI)).insertIdx
      (min (if toI < 0 then ((array.length : Int) + toI).toNat else toI.toNat)
           (array.eraseIdx (spliceStart array.length fromI)).length)
      moved

/-- onDragEnd from ColumnList/index.tsx: when the dragged id differs from the
id dropped over, replace the list by arrayMove at the two found indices;
otherwise leave the list alone.  overId is None when over is null. -/
def onDragEnd (activeId : String) (overId : Option String) (previous : List IColumnItem) :
    List IColumnItem :=
  if some activeId ≠ overId then
    let activeIndex := findIndexJs (fun i => i.key == activeId) previous
    let overIndex := findIndexJs (fun i => some i.key == overId) previous
    arrayMove previous activeIndex overIndex
  else
    previous

/-- The two buttons bound to moveData in ColumnList/index.tsx. -/
inductive MoveAction where
  | up : MoveAction
  | down : MoveAction
deriving Repr, DecidableEq

/-- moveData from ColumnList/index.tsx: find the edited row's index (JS
findIndex -1 modelled as the none branch, matching the early return), return
unchanged at the boundary, otherwise copy the list and swap the row with its
neighbour by two index assignments.  The inner matches mirror the JS index
reads, which are in bounds whenever findIndex succeeded. -/
def moveData (action : MoveAction) (editingKey : String) (dataSource : List IColumnItem) :
    List IColumnItem :=
  match dataSource.findIdx? (fun i => i.key == editingKey) with
  | none => dataSource
  | some index =>
    match action with
    | MoveAction.up =>
      if index = 0 then dataSource
      else
        match dataSource[index - 1]?, dataSource[index]? with
        | some prevRow, some curRow => (dataSource.set index prevRow).set (index - 1) curRow
        | _, _ => dataSource
    | MoveAction.down =>
      if index = dataSource.length - 1 then dataSource
      else
        match dataSource[index + 1]?, dataSource[index]? with
        | some nextRow, some curRow => (dataSource.set index nextRow).set (index + 1) curRow
        | _, _ => dataSource

/-- deleteData from ColumnList/index.tsx: keep exactly the rows whose key
differs from the current editingKey. -/
def deleteData (editingKey : String) (dataSource : List IColumnItem) : List IColumnItem :=
  dataSource.filter (fun i => i.key != editingKey)

/-- The component state touched by the claims: the dataSource list, the
editingKey and the databaseFieldTypeList, as held by the three useState
hooks of ColumnList/index.tsx. -/
structure ComponentState where
  dataSource : List IColumnItem
  editingKey : String
  databaseFieldTypeList : List String
deriving Repr, DecidableEq

/-- The initial hook values of ColumnList/index.tsx: one blank row, an empty
editingKey, an empty field-type list.  firstKey is the uuid generated for the
initial blank row. -/
def initialComponentState (firstKey : String) : ComponentState :=
  { dataSource := [createInitialData firstKey]
    editingKey := ""
    databaseFieldTypeList := [] }

/-- addData from ColumnList/index.tsx: build a blank row, append it, and call
edit on it, which sets the editingKey to the new row's key. -/
def addData (fresh : String) (s : ComponentState) : ComponentState :=
  let newData := createInitialData fresh
  { s with
    dataSource := s.dataSource ++ [newData]
    editingKey := newData.key }

/-- The tableDetails object consumed by the ColumnList effect: only its
columnList field matters, which may itself be absent. -/
structure TableDetails where
  columnList : Option (List IColumnItem)

/-- The map inside the tableDetails effect: spread each source record and
overwrite its key with a fresh uuid.  The generator gen stands for the
successive uuidv4 results; the counter argument is the position. -/
def tagWithKeys (gen : Nat → String) : Nat → List IColumnItem → List IColumnItem
  | _, [] => []
  | n, t :: ts => { t with key := gen n } :: tagWithKeys gen (n + 1) ts

/-- The useEffect on tableDetails in ColumnList/index.tsx: when tableDetails
is truthy, replace the dataSource by the freshly keyed copy of its columnList,
falling back to the empty list when columnList is absent. -/
def loadFromTableDetails (gen : Nat → String) (tableDetails : Option TableDetails)
    (dataSource : List IColumnItem) : List IColumnItem :=
  match tableDetails with
  | none => dataSource
  | some td =>
    match td.columnList with
    | none => []
    | some cl => tagWithKeys gen 0 cl

/-- The form fields that handelFieldsChange can receive, one per editable
column of the table in ColumnList/index.tsx. -/
inductive FormField where
  | name : FormField
  | columnSize : FormField
  | columnType : FormField
  | nullable : FormField
  | comment : FormField
deriving Repr, DecidableEq

/-- A form value: the string inputs, the numeric input, or the nullable
checkbox. -/
inductive FormValue where
  | vStr : Option String → FormValue
  | vNum : Option Int → FormValue
  | vBool : Bool → FormValue
deriving Repr, DecidableEq

/-- The computed-property update in handelFieldsChange: spread the item and
overwrite the named field; a nullable checkbox value is first converted to
1 or 0.  A value of the wrong shape for the field leaves the item unchanged. -/
def applyFieldChange (f : FormField) (v : FormValue) (item : IColumnItem) : IColumnItem :=
  match f, v with
  | FormField.name, FormValue.vStr s => { item with name := s }
  | FormField.columnSize, FormValue.vNum n => { item with columnSize := n }
  | FormField.columnType, FormValue.vStr s => { item with columnType := s }
  | FormField.nullable, FormValue.vBool b => { item with nullable := some (if b then 1 else 0) }
  | FormField.comment, FormValue.vStr s => { item with comment := s }
  | _, _ => item

/-- handelFieldsChange from ColumnList/index.tsx: map over the dataSource and
merge the changed field into the row whose key equals the editingKey. -/
def handelFieldsChange (editingKey : String) (f : FormField) (v : FormValue)
    (dataSource : List IColumnItem) : List IColumnItem :=
  dataSource.map (fun item => if item.key == editingKey then applyFieldChange f v item else item)

/-- One element of the getDatabaseFieldTypeList response, exposing its
typeName field. -/
structure FieldTypeItem where
  typeName : String
deriving Repr, DecidableEq

/-- The field-type fetch effect of ColumnList/index.tsx: the promise has a
then callback and no catch, so a rejected call changes no state, while a
fulfilled call with result res stores res.map(i => i.typeName). -/
def applyFieldTypeResponse (resp : Except Unit (List FieldTypeItem)) (s : ComponentState) :
    ComponentState :=
  match resp with
  | Except.error _ => s
  | Except.ok res => { s with databaseFieldTypeList := res.map (fun i => i.typeName) }

/-- Modelled from the spec: the workspace store consumed by the panel-toggle
component holds two boolean layout flags, panelLeft and panelRight (the store
implementation is outside the provided source; only its consumer is shown). -/
structure WorkspaceLayoutState where
  panelLeft : Bool
  panelRight : Bool
deriving Repr, DecidableEq

/-- Modelled from the spec: the togglePanelLeft store action wired to the left
icon's click handler; toggling flips the current value, no validation. -/
def togglePanelLeft (s : WorkspaceLayoutState) : WorkspaceLayoutState :=
  { s with panelLeft := !s.panelLeft }

/-- Modelled from the spec: the togglePanelRight store action wired to the
right icon's click handler; toggling flips the current value, no validation. -/
def togglePanelRight (s : WorkspaceLayoutState) : WorkspaceLayoutState :=
  { s with panelRight := !s.panelRight }

/-- The row keys of a column list, in order. -/
def keysOf (l : List IColumnItem) : List String :=
  l.map (fun i => i.key)

/-- A sample blank row used by the concrete witnesses below. -/
def sampleRow (k : String) : IColumnItem :=
  createInitialData k

/-- A three-row sample list with pairwise distinct keys. -/
def sampleList3 : List IColumnItem :=
  [sampleRow "k0", sampleRow "k1", sampleRow "k2"]

/-! Helper lemmas about list indexing, permutations and arrayMove. -/

lemma getElem?_of_findIdx?_some {α : Type} {p : α → Bool} :
    ∀ {l : List α} {n : Nat}, l.findIdx? p = some n → ∃ x, l[n]? = some x ∧ p x = true := by
  intro l
  induction l with
  | nil => intro n h; simp at h
  | cons y ys ih =>
    intro n h
    rw [List.findIdx?_cons] at h
    by_cases hp : p y
    · rw [if_pos hp] at h
      have h0 : (0 : Nat) = n := by injection h
      subst h0
      exact ⟨y, List.getElem?_cons_zero, hp⟩
    · rw [if_neg hp, List.findIdx?_succ] at h
      cases hm : ys.findIdx? p with
      | none => rw [hm] at h; simp at h
      | some m =>
        rw [hm] at h
        simp only [Option.map_some'] at h
        obtain ⟨x, hx, hpx⟩ := ih hm
        refine ⟨x, ?_, hpx⟩
        have hn : m + 1 = n := by injection h
        subst hn
        simpa using hx

lemma lt_length_of_getElem?_some {α : Type} {l : List α} {n : Nat} {x : α}
    (h : l[n]? = some x) : n < l.length := by
  rcases List.getElem?_eq_some_iff.mp h with ⟨hlt, _⟩
  exact hlt

lemma perm_cons_eraseIdx {α : Type} (l : List α) :
    ∀ (n : Nat) (x : α), l[n]? = some x → l.Perm (x :: l.eraseIdx n) := by
  induction l with
  | nil => intro n x h; simp at h
  | cons y t ih =>
    intro n x h
    cases n with
    | zero =>
      rw [List.getElem?_cons_zero] at h
      have hyx : y = x := by injection h
      subst hyx
      exact List.Perm.refl _
    | succ n =>
      rw [List.getElem?_cons_succ] at h
      have hp := ih n x h
      rw [List.eraseIdx_cons_succ]
      exact (List.Perm.cons y hp).trans (List.Perm.swap x y _)

lemma perm_insertIdx {α : Type} (x : α) :
    ∀ (l : List α) (n : Nat), n ≤ l.length → (l.insertIdx n x).Perm (x :: l) := by
  intro l
  induction l with
  | nil =>
    intro n h
    have h0 : n = 0 := Nat.le_zero.mp h
    subst h0
    rw [List.insertIdx_zero]
  | cons y t ih =>
    intro n h
    cases n with
    | zero =>
      rw [List.insertIdx_zero]
    | succ n =>
      rw [List.insertIdx_succ_cons]
      have hp := ih n (by simpa using h)
      exact (List.Perm.cons y hp).trans (List.Perm.swap x y t)

lemma arrayMove_eq_of_valid {α : Type} (l : List α) (n m : Nat) (x : α)
    (hx : l[n]? = some x) (hm : m < l.length) :
    arrayMove l (n : Int) (m : Int) = (l.eraseIdx n).insertIdx m x := by
  have hn : n < l.length := lt_length_of_getElem?_some hx
  have hrp : spliceStart l.length (n : Int) = n := by
    unfold spliceStart
    rw [if_neg (by omega), Int.toNat_ofNat]
    omega
  have hlen : (l.eraseIdx n).length = l.length - 1 := List.length_eraseIdx_of_lt hn
  unfold arrayMove
  rw [hrp, hx]
  have hip : (if (m : Int) < 0 then ((l.length : Int) + (m : Int)).toNat else (m : Int).toNat) = m := by
    rw [if_neg (by omega), Int.toNat_ofNat]
  rw [hip]
  have hmin : min m (l.eraseIdx n).length = m := by
    rw [hlen]; omega
  rw [hmin]

lemma arrayMove_perm {α : Type} (l : List α) (f t : Int) : (arrayMove l f t).Perm l := by
  unfold arrayMove
  cases hx : l[spliceStart l.length f]? with
  | none => exact List.Perm.refl _
  | some moved =>
    have h1 := perm_insertIdx moved (l.eraseIdx (spliceStart l.length f))
      (min (if t < 0 then ((l.length : Int) + t).toNat else t.toNat)
        (l.eraseIdx (spliceStart l.length f)).length) (Nat.min_le_right _ _)
    have h2 := perm_cons_eraseIdx l (spliceStart l.length f) moved hx
    exact h1.trans h2.symm

/-! Drag-and-drop reorder (claims C1 and C2). -/

lemma beq_some_key (b : String) :
    (fun i : IColumnItem => some i.key == some b) = (fun i : IColumnItem => i.key == b) := by
  funext i
  rfl

lemma findIndexJs_eq_of_findIdx? {α : Type} {p : α → Bool} {l : List α} {n : Nat}
    (h : l.findIdx? p = some n) : findIndexJs p l = (n : Int) := by
  unfold findIndexJs
  rw [h]

lemma onDragEnd_valid_spec (a b : String) (l : List IColumnItem) (ia ib : Nat)
    (ha : l.findIdx? (fun i => i.key == a) = some ia)
    (hb : l.findIdx? (fun i => i.key == b) = some ib)
    (hab : a ≠ b) :
    ∃ x, l[ia]? = some x ∧
      onDragEnd a (some b) l = (l.eraseIdx ia).insertIdx ib x ∧
      (onDragEnd a (some b) l)[ib]? = some x ∧
      (onDragEnd a (some b) l).eraseIdx ib = l.eraseIdx ia := by
  obtain ⟨x, hx, hpx⟩ := getElem?_of_findIdx?_some ha
  obtain ⟨yb, hyb, hpyb⟩ := getElem?_of_findIdx?_some hb
  have hia : ia < l.length := lt_length_of_getElem?_some hx
  have hib : ib < l.length := lt_length_of_getElem?_some hyb
  have hne : some a ≠ some b := by simpa using hab
  have hod : onDragEnd a (some b) l = (l.eraseIdx ia).insertIdx ib x := by
    unfold onDragEnd
    rw [if_pos hne]
    rw [findIndexJs_eq_of_findIdx? ha]
    rw [beq_some_key b, findIndexJs_eq_of_findIdx? hb]
    exact arrayMove_eq_of_valid l ia ib x hx hib
  have hlen : (l.eraseIdx ia).length = l.length - 1 := List.length_eraseIdx_of_lt hia
  have hble : ib ≤ (l.eraseIdx ia).length := by omega
  refine ⟨x, hx, hod, ?_, ?_⟩
  · rw [hod]
    have hlt : ib < ((l.eraseIdx ia).insertIdx ib x).length := by
      rw [List.length_insertIdx ib _ hble]
      omega
    rw [List.getElem?_eq_getElem hlt]
    rw [List.getElem_insertIdx_self _ x ib hble]
  · rw [hod]
    exact List.eraseIdx_insertIdx ib (l.eraseIdx ia)

/-- C1: for every column list and drag-end event whose dragged key and drop
key identify two distinct rows (at indices ia and ib, the dragged row being
x), the drag handler returns the original list with the dragged row removed
from its index and re-inserted at the drop target's index: the dragged row
occupies the target index, and removing it there restores every other row in
its original relative order. -/
theorem onDragEnd_moves_dragged_row (a b : String) (l : List IColumnItem) (ia ib : Nat)
    (x : IColumnItem)
    (ha : l.findIdx? (fun i => i.key == a) = some ia)
    (hb : l.findIdx? (fun i => i.key == b) = some ib)
    (hx : l[ia]? = some x)
    (hab : a ≠ b) :
    onDragEnd a (some b) l = (l.eraseIdx ia).insertIdx ib x ∧
    (onDragEnd a (some b) l)[ib]? = some x ∧
    (onDragEnd a (some b) l).eraseIdx ib = l.eraseIdx ia := by
  obtain ⟨x', hx', h1, h2, h3⟩ := onDragEnd_valid_spec a b l ia ib ha hb hab
  rw [hx] at hx'
  obtain rfl : x = x' := by injection hx'
  exact ⟨h1, h2, h3⟩

/-- C1 witness: dragging row k0 of the three-row sample list onto row k2. -/
theorem onDragEnd_moves_dragged_row_witness :
    onDragEnd "k0" (some "k2") sampleList3 =
      (sampleList3.eraseIdx 0).insertIdx 2 (sampleRow "k0") ∧
    (onDragEnd "k0" (some "k2") sampleList3)[2]? = some (sampleRow "k0") ∧
    (onDragEnd "k0" (some "k2") sampleList3).eraseIdx 2 = sampleList3.eraseIdx 0 :=
  onDragEnd_moves_dragged_row "k0" "k2" sampleList3 0 2 (sampleRow "k0")
    (by decide) (by decide) (by decide) (by decide)

/-- C2 counterexample: dragging the first row (key k0) of the three-row
sample list onto the last row (key k2) yields the list [k1, k2, k0]; the
target row k2 does not take the dragged row's former position 0, and the
middle row k1 does not stay in place, so the swap description of the claim
is false at this input. -/
theorem onDragEnd_not_swap :
    onDragEnd "k0" (some "k2") sampleList3 =
      [sampleRow "k1", sampleRow "k2", sampleRow "k0"] ∧
    ¬ ((onDragEnd "k0" (some "k2") sampleList3)[0]? = some (sampleRow "k2")) ∧
    ¬ ((onDragEnd "k0" (some "k2") sampleList3)[1]? = sampleList3[1]?) := by
  exact ⟨by decide, by decide, by decide⟩

/-- C2 amended: drag reorder moves (rather than swaps) the dragged row to the
drop target's position: the dragged row ends at the target's former index and
the remaining rows keep their relative order; the target row does not in
general move to the dragged row's former position. -/
theorem onDragEnd_target_position (a b : String) (l : List IColumnItem) (ia ib : Nat)
    (x : IColumnItem)
    (ha : l.findIdx? (fun i => i.key == a) = some ia)
    (hb : l.findIdx? (fun i => i.key == b) = some ib)
    (hx : l[ia]? = some x)
    (hab : a ≠ b) :
    (onDragEnd a (some b) l)[ib]? = some x ∧
    (onDragEnd a (some b) l).eraseIdx ib = l.eraseIdx ia := by
  obtain ⟨x', hx', _, h2, h3⟩ := onDragEnd_valid_spec a b l ia ib ha hb hab
  rw [hx] at hx'
  obtain rfl : x = x' := by injection hx'
  exact ⟨h2, h3⟩

/-- C2 amended witness: dragging row k2 of the three-row sample list onto
row k0. -/
theorem onDragEnd_target_position_witness :
    (onDragEnd "k2" (some "k0") sampleList3)[0]? = some (sampleRow "k2") ∧
    (onDragEnd "k2" (some "k0") sampleList3).eraseIdx 0 = sampleList3.eraseIdx 2 :=
  onDragEnd_target_position "k2" "k0" sampleList3 2 0 (sampleRow "k2")
    (by decide) (by decide) (by decide) (by decide)

/-! Move-up / move-down (claims C3 and C10). -/

lemma moveData_up_eq (k : String) (l : List IColumnItem) (i : Nat)
    (hfind : l.findIdx? (fun r => r.key == k) = some i) :
    moveData MoveAction.up k l =
      if i = 0 then l
      else
        match l[i - 1]?, l[i]? with
        | some prevRow, some curRow => (l.set i prevRow).set (i - 1) curRow
        | _, _ => l := by
  unfold moveData
  rw [hfind]

lemma moveData_down_eq (k : String) (l : List IColumnItem) (i : Nat)
    (hfind : l.findIdx? (fun r => r.key == k) = some i) :
    moveData MoveAction.down k l =
      if i = l.length - 1 then l
      else
        match l[i + 1]?, l[i]? with
        | some nextRow, some curRow => (l.set i nextRow).set (i + 1) curRow
        | _, _ => l := by
  unfold moveData
  rw [hfind]

/-- C3: when the row whose key equals the current edit key sits at index i
(the index found for that key, the unique one when exactly one row matches),
move-up is the identity at the first row and move-down the identity at the
last row; otherwise move-up (resp. move-down) exchanges only the contents of
positions i - 1 and i (resp. i and i + 1), every other position reading back
unchanged. -/
theorem moveData_spec (k : String) (l : List IColumnItem) (i : Nat)
    (hfind : l.findIdx? (fun r => r.key == k) = some i) :
    (i = 0 → moveData MoveAction.up k l = l) ∧
    (i = l.length - 1 → moveData MoveAction.down k l = l) ∧
    (i ≠ 0 →
      (moveData MoveAction.up k l)[i]? = l[i - 1]? ∧
      (moveData MoveAction.up k l)[i - 1]? = l[i]? ∧
      ∀ j, j ≠ i - 1 → j ≠ i → (moveData MoveAction.up k l)[j]? = l[j]?) ∧
    (i ≠ l.length - 1 →
      (moveData MoveAction.down k l)[i]? = l[i + 1]? ∧
      (moveData MoveAction.down k l)[i + 1]? = l[i]? ∧
      ∀ j, j ≠ i → j ≠ i + 1 → (moveData MoveAction.down k l)[j]? = l[j]?) := by
  obtain ⟨x, hx, hpx⟩ := getElem?_of_findIdx?_some hfind
  have hi : i < l.length := lt_length_of_getElem?_some hx
  refine ⟨?_, ?_, ?_, ?_⟩
  · intro h0
    rw [moveData_up_eq k l i hfind, if_pos h0]
  · intro hlast
    rw [moveData_down_eq k l i hfind, if_pos hlast]
  · intro h0
    have hprev : i - 1 < l.length := by omega
    have hy : l[i - 1]? = some (l.get ⟨i - 1, hprev⟩) := List.getElem?_eq_getElem hprev
    rw [moveData_up_eq k l i hfind, if_neg h0, hy, hx]
    have hne1 : i - 1 ≠ i := by omega
    refine ⟨?_, ?_, ?_⟩
    · rw [List.getElem?_set_ne hne1, List.getElem?_set_self (by simpa using hi)]
    · rw [List.getElem?_set_self (by simp; omega)]
    · intro j hj1 hj2
      rw [List.getElem?_set_ne (Ne.symm hj1), List.getElem?_set_ne (Ne.symm hj2)]
  · intro hlast
    have hnext : i + 1 < l.length := by omega
    have hy : l[i + 1]? = some (l.get ⟨i + 1, hnext⟩) := List.getElem?_eq_getElem hnext
    rw [moveData_down_eq k l i hfind, if_neg hlast, hy, hx]
    have hne1 : i + 1 ≠ i := by omega
    refine ⟨?_, ?_, ?_⟩
    · rw [List.getElem?_set_ne hne1, List.getElem?_set_self (by simpa using hi)]
    · rw [List.getElem?_set_self (by simp; omega)]
    · intro j hj1 hj2
      rw [List.getElem?_set_ne (Ne.symm hj2), List.getElem?_set_ne (Ne.symm hj1)]

/-- C3 witness: on the three-row sample list with the middle row in edit
mode, move-up and move-down each swap exactly the expected neighbouring
positions. -/
theorem moveData_spec_witness :
    (moveData MoveAction.up "k1" sampleList3)[1]? = sampleList3[0]? ∧
    (moveData MoveAction.up "k1" sampleList3)[0]? = sampleList3[1]? ∧
    (moveData MoveAction.up "k1" sampleList3)[2]? = sampleList3[2]? ∧
    (moveData MoveAction.down "k1" sampleList3)[1]? = sampleList3[2]? ∧
    (moveData MoveAction.down "k1" sampleList3)[2]? = sampleList3[1]? ∧
    (moveData MoveAction.down "k1" sampleList3)[0]? = sampleList3[0]? := by
  have h := moveData_spec "k1" sampleList3 1 (by decide)
  obtain ⟨-, -, hup, hdown⟩ := h
  obtain ⟨u1, u2, u3⟩ := hup (by decide)
  obtain ⟨d1, d2, d3⟩ := hdown (by decide)
  exact ⟨u1, u2, u3 2 (by decide) (by decide), d1, d2, d3 0 (by decide) (by decide)⟩

/-! Delete and the no-match no-ops (claims C4 and C10). -/
lemma deleteData_eq_eraseIdx (k : String) :
    ∀ (l : List IColumnItem) (i : Nat), (keysOf l).Nodup →
      l.findIdx? (fun r => r.key == k) = some i → deleteData k l = l.eraseIdx i := by
  intro l
  induction l with
  | nil => intro i h1 h2; simp at h2
  | cons y ys ih =>
    intro i hnodup hfind
    rw [List.findIdx?_cons] at hfind
    rw [show keysOf (y :: ys) = y.key :: keysOf ys from rfl, List.nodup_cons] at hnodup
    by_cases hp : (y.key == k) = true
    · rw [if_pos hp] at hfind
      obtain rfl : (0 : Nat) = i := by injection hfind
      have hyk : y.key = k := eq_of_beq hp
      unfold deleteData
      rw [List.eraseIdx_cons_zero]
      rw [List.filter_cons_of_neg (by simp [hyk])]
      rw [List.filter_eq_self]
      intro r hr
      simp only [bne_iff_ne, ne_eq]
      intro hrk
      exact hnodup.1 (by rw [hyk, ← hrk]; exact List.mem_map_of_mem _ hr)
    · rw [if_neg hp, List.findIdx?_succ] at hfind
      cases hm : ys.findIdx? (fun r => r.key == k) with
      | none => rw [hm] at hfind; simp at hfind
      | some m =>
        rw [hm] at hfind
        simp only [Option.map_some'] at hfind
        obtain rfl : m + 1 = i := by injection hfind
        have hyk : y.key ≠ k := fun hc => hp (by simp [hc])
        have hys := ih m hnodup.2 hm
        unfold deleteData at hys ⊢
        rw [List.eraseIdx_cons_succ]
        rw [List.filter_cons_of_pos (by simpa using hyk)]
        rw [hys]

/-- C4: when the row keys are pairwise distinct and the row whose key equals
the current edit key sits at index i, delete removes exactly that row: the
result is the original list with index i erased, all other rows unchanged and
in order. -/
theorem deleteData_spec (k : String) (l : List IColumnItem) (i : Nat)
    (hnodup : (keysOf l).Nodup)
    (hfind : l.findIdx? (fun r => r.key == k) = some i) :
    deleteData k l = l.eraseIdx i :=
  deleteData_eq_eraseIdx k l i hnodup hfind

/-- C4 witness: deleting the middle row of the three-row sample list. -/
theorem deleteData_spec_witness :
    deleteData "k1" sampleList3 = sampleList3.eraseIdx 1 :=
  deleteData_spec "k1" sampleList3 1 (by decide) (by decide)

/-- C10: when no row's key equals the current edit key (in particular for the
empty initial edit key, which no generated identifier equals), delete,
move-up and move-down all leave the column list unchanged. -/
theorem no_match_noop (k : String) (l : List IColumnItem)
    (h : ∀ r ∈ l, r.key ≠ k) :
    deleteData k l = l ∧ moveData MoveAction.up k l = l ∧ moveData MoveAction.down k l = l := by
  have hfind : l.findIdx? (fun r => r.key == k) = none := by
    rw [List.findIdx?_eq_none_iff]
    intro r hr
    simpa using h r hr
  refine ⟨?_, ?_, ?_⟩
  · unfold deleteData
    rw [List.filter_eq_self]
    intro r hr
    simpa using h r hr
  · unfold moveData
    rw [hfind]
  · unfold moveData
    rw [hfind]

/-- C10 witness: the sample list with the initial empty edit key. -/
theorem no_match_noop_witness :
    deleteData "" sampleList3 = sampleList3 ∧
    moveData MoveAction.up "" sampleList3 = sampleList3 ∧
    moveData MoveAction.down "" sampleList3 = sampleList3 :=
  no_match_noop "" sampleList3 (by decide)

/-! Add, load, panel toggles and the field-type fetch (claims C5, C6, C8, C9). -/
/-- C5: add appends exactly one new blank row at the end of the list, with a
freshly generated key and every column field null, leaves the existing rows
and the rest of the state untouched, and sets the edit key to the new row's
key so that the new row is the one in edit mode. -/
theorem addData_spec (fresh : String) (s : ComponentState) :
    (addData fresh s).dataSource = s.dataSource ++ [createInitialData fresh] ∧
    (addData fresh s).editingKey = fresh ∧
    isEditing (addData fresh s).editingKey (createInitialData fresh) = true ∧
    (addData fresh s).databaseFieldTypeList = s.databaseFieldTypeList ∧
    (createInitialData fresh).key = fresh ∧
    (createInitialData fresh).name = none ∧
    (createInitialData fresh).columnSize = none ∧
    (createInitialData fresh).columnType = none ∧
    (createInitialData fresh).nullable = none ∧
    (createInitialData fresh).comment = none ∧
    (createInitialData fresh).primaryKey = none ∧
    (createInitialData fresh).defaultValue = none ∧
    (createInitialData fresh).dataType = none ∧
    (createInitialData fresh).autoIncrement = none ∧
    (createInitialData fresh).numericPrecision = none ∧
    (createInitialData fresh).numericScale = none ∧
    (createInitialData fresh).characterMaximumLength = none := by
  refine ⟨rfl, rfl, ?_, rfl, rfl, rfl, rfl, rfl, rfl, rfl, rfl, rfl, rfl, rfl, rfl, rfl, rfl⟩
  simp [addData, isEditing, createInitialData]

/-- An injective key generator used by the concrete witnesses: n is mapped to
the string of n repetitions of the letter g. -/
def witnessGen (n : Nat) : String :=
  String.mk (List.replicate n 'g')

lemma tagWithKeys_length (gen : Nat → String) :
    ∀ (m : Nat) (cl : List IColumnItem), (tagWithKeys gen m cl).length = cl.length := by
  intro m cl
  induction cl generalizing m with
  | nil => rfl
  | cons t ts ih => simp [tagWithKeys, ih]

lemma tagWithKeys_getElem? (gen : Nat → String) :
    ∀ (cl : List IColumnItem) (m n : Nat),
      (tagWithKeys gen m cl)[n]? = (cl[n]?).map (fun t => { t with key := gen (m + n) }) := by
  intro cl
  induction cl with
  | nil => intro m n; simp [tagWithKeys]
  | cons t ts ih =>
    intro m n
    cases n with
    | zero => simp [tagWithKeys]
    | succ n =>
      rw [show tagWithKeys gen m (t :: ts) = { t with key := gen m } :: tagWithKeys gen (m + 1) ts
        from rfl]
      rw [List.getElem?_cons_succ, List.getElem?_cons_succ, ih (m + 1) n]
      have he : m + 1 + n = m + (n + 1) := by omega
      rw [he]

/-- C6: when a table-details object with a column list cl arrives, the local
column sequence is replaced by a copy of cl of the same length whose n-th row
is the n-th source record with only its key replaced by the n-th freshly
generated identifier (so all field values match the source, in order); when
the object has no column list the sequence becomes empty. -/
theorem loadFromTableDetails_spec (gen : Nat → String) (cl : List IColumnItem)
    (l : List IColumnItem) :
    (loadFromTableDetails gen (some ⟨some cl⟩) l).length = cl.length ∧
    (∀ n, (loadFromTableDetails gen (some ⟨some cl⟩) l)[n]? =
      (cl[n]?).map (fun t : IColumnItem => { t with key := gen n })) ∧
    loadFromTableDetails gen (some ⟨none⟩) l = [] := by
  have hload : loadFromTableDetails gen (some ⟨some cl⟩) l = tagWithKeys gen 0 cl := rfl
  refine ⟨?_, ?_, rfl⟩
  · rw [hload, tagWithKeys_length]
  · intro n
    rw [hload, tagWithKeys_getElem?]
    simp

/-- C8: for every state of the two panel flags, the left toggle flips exactly
the left flag and leaves the right flag unchanged, and the right toggle flips
exactly the right flag and leaves the left flag unchanged. -/
theorem togglePanel_spec (s : WorkspaceLayoutState) :
    (togglePanelLeft s).panelLeft = !s.panelLeft ∧
    (togglePanelLeft s).panelRight = s.panelRight ∧
    (togglePanelRight s).panelRight = !s.panelRight ∧
    (togglePanelRight s).panelLeft = s.panelLeft :=
  ⟨rfl, rfl, rfl, rfl⟩

/-- C9: the field-type fetch has no error branch: a failed call leaves the
whole component state unchanged, so the type-options list stays in its
initial empty state; a successful call with result r replaces the
type-options list by exactly the typeName fields of r in order and modifies
no other state. -/
theorem fieldTypeList_fetch_spec (k : String) (e : Unit) (r : List FieldTypeItem)
    (s : ComponentState) :
    (initialComponentState k).databaseFieldTypeList = [] ∧
    applyFieldTypeResponse (Except.error e) s = s ∧
    (applyFieldTypeResponse (Except.ok r) s).databaseFieldTypeList =
      r.map (fun i => i.typeName) ∧
    (applyFieldTypeResponse (Except.ok r) s).dataSource = s.dataSource ∧
    (applyFieldTypeResponse (Except.ok r) s).editingKey = s.editingKey :=
  ⟨rfl, rfl, rfl, rfl, rfl⟩

/-! Key-uniqueness invariant (claim C7). -/
lemma mem_keysOf_tagWithKeys (gen : Nat → String) :
    ∀ (cl : List IColumnItem) (m : Nat) (s : String),
      s ∈ keysOf (tagWithKeys gen m cl) → ∃ j, m ≤ j ∧ s = gen j := by
  intro cl
  induction cl with
  | nil => intro m s hs; simp [tagWithKeys, keysOf] at hs
  | cons t ts ih =>
    intro m s hs
    rw [show keysOf (tagWithKeys gen m (t :: ts)) =
      gen m :: keysOf (tagWithKeys gen (m + 1) ts) from rfl] at hs
    rcases List.mem_cons.mp hs with h | h
    · exact ⟨m, Nat.le_refl m, h⟩
    · obtain ⟨j, hj1, hj2⟩ := ih (m + 1) s h
      exact ⟨j, by omega, hj2⟩

lemma keysOf_tagWithKeys_nodup (gen : Nat → String)
    (hinj : ∀ m n : Nat, m ≠ n → gen m ≠ gen n) :
    ∀ (cl : List IColumnItem) (m : Nat), (keysOf (tagWithKeys gen m cl)).Nodup := by
  intro cl
  induction cl with
  | nil => intro m; simp [tagWithKeys, keysOf]
  | cons t ts ih =>
    intro m
    rw [show keysOf (tagWithKeys gen m (t :: ts)) =
      gen m :: keysOf (tagWithKeys gen (m + 1) ts) from rfl, List.nodup_cons]
    refine ⟨?_, ih (m + 1)⟩
    intro hmem
    obtain ⟨j, hj1, hj2⟩ := mem_keysOf_tagWithKeys gen ts (m + 1) (gen m) hmem
    exact hinj m j (by omega) hj2

lemma set_swap_succ_perm {α : Type} :
    ∀ (l : List α) (n : Nat) (a b : α), l[n]? = some a → l[n + 1]? = some b →
      ((l.set (n + 1) a).set n b).Perm l := by
  intro l
  induction l with
  | nil => intro n a b h1 h2; simp at h1
  | cons y t ih =>
    intro n a b h1 h2
    cases n with
    | zero =>
      rw [List.getElem?_cons_zero] at h1
      obtain rfl : y = a := by injection h1
      rw [List.getElem?_cons_succ] at h2
      cases t with
      | nil => simp at h2
      | cons z t2 =>
        rw [List.getElem?_cons_zero] at h2
        obtain rfl : z = b := by injection h2
        show ((z : α) :: y :: t2).Perm (y :: z :: t2)
        exact List.Perm.swap y z t2
    | succ n =>
      rw [List.getElem?_cons_succ] at h1 h2
      have hp := ih n a b h1 h2
      show (y :: ((t.set (n + 1) a).set n b)).Perm (y :: t)
      exact List.Perm.cons y hp

lemma set_swap_succ_perm' {α : Type} :
    ∀ (l : List α) (n : Nat) (a b : α), l[n]? = some a → l[n + 1]? = some b →
      ((l.set n b).set (n + 1) a).Perm l := by
  intro l
  induction l with
  | nil => intro n a b h1 h2; simp at h1
  | cons y t ih =>
    intro n a b h1 h2
    cases n with
    | zero =>
      rw [List.getElem?_cons_zero] at h1
      obtain rfl : y = a := by injection h1
      rw [List.getElem?_cons_succ] at h2
      cases t with
      | nil => simp at h2
      | cons z t2 =>
        rw [List.getElem?_cons_zero] at h2
        obtain rfl : z = b := by injection h2
        show ((z : α) :: y :: t2).Perm (y :: z :: t2)
        exact List.Perm.swap y z t2
    | succ n =>
      rw [List.getElem?_cons_succ] at h1 h2
      have hp := ih n a b h1 h2
      show (y :: ((t.set n b).set (n + 1) a)).Perm (y :: t)
      exact List.Perm.cons y hp

lemma moveData_perm (act : MoveAction) (k : String) (l : List IColumnItem) :
    (moveData act k l).Perm l := by
  cases hfind : l.findIdx? (fun i => i.key == k) with
  | none =>
    unfold moveData
    rw [hfind]
  | some i =>
    cases act with
    | up =>
      rw [moveData_up_eq k l i hfind]
      by_cases h0 : i = 0
      · rw [if_pos h0]
      · rw [if_neg h0]
        cases hprev : l[i - 1]? with
        | none => exact List.Perm.refl _
        | some prevRow =>
          cases hcur : l[i]? with
          | none => exact List.Perm.refl _
          | some curRow =>
            have hi : i - 1 + 1 = i := by omega
            have h2 : l[(i - 1) + 1]? = some curRow := by rw [hi]; exact hcur
            have hp := set_swap_succ_perm l (i - 1) prevRow curRow hprev h2
            rw [hi] at hp
            exact hp
    | down =>
      rw [moveData_down_eq k l i hfind]
      by_cases hlast : i = l.length - 1
      · rw [if_pos hlast]
      · rw [if_neg hlast]
        cases hnext : l[i + 1]? with
        | none => exact List.Perm.refl _
        | some nextRow =>
          cases hcur : l[i]? with
          | none => exact List.Perm.refl _
          | some curRow =>
            exact set_swap_succ_perm' l i curRow nextRow hcur hnext

lemma applyFieldChange_key (f : FormField) (v : FormValue) (item : IColumnItem) :
    (applyFieldChange f v item).key = item.key := by
  cases f <;> cases v <;> rfl

lemma keysOf_handelFieldsChange (k : String) (f : FormField) (v : FormValue)
    (l : List IColumnItem) : keysOf (handelFieldsChange k f v l) = keysOf l := by
  unfold handelFieldsChange keysOf
  rw [List.map_map]
  apply List.map_congr_left
  intro item hmem
  simp only [Function.comp]
  by_cases h : (item.key == k) = true
  · rw [if_pos h, applyFieldChange_key]
  · rw [if_neg h]

lemma keysOf_append (l1 l2 : List IColumnItem) :
    keysOf (l1 ++ l2) = keysOf l1 ++ keysOf l2 :=
  List.map_append _ _ _

lemma witnessGen_injective : ∀ m n : Nat, m ≠ n → witnessGen m ≠ witnessGen n := by
  intro m n hmn heq
  apply hmn
  unfold witnessGen at heq
  have hdata : List.replicate m 'g' = List.replicate n 'g' := by injection heq
  have hlen := congrArg List.length hdata
  simpa using hlen

lemma onDragEnd_perm (a : String) (overId : Option String) (l : List IColumnItem) :
    (onDragEnd a overId l).Perm l := by
  unfold onDragEnd
  by_cases hc : some a ≠ overId
  · rw [if_pos hc]
    exact arrayMove_perm l _ _
  · rw [if_neg hc]

/-- C7: assuming each generated identifier is fresh (the generator injective,
an appended key not already present), every operation of the component -
initial state, reload from table details, add, delete, move-up/move-down,
drag reorder, and field edit - preserves pairwise distinctness of the row
keys of the in-memory list. -/
theorem keys_nodup_invariant :
    (∀ k, (keysOf (initialComponentState k).dataSource).Nodup) ∧
    (∀ gen td l, (∀ m n : Nat, m ≠ n → gen m ≠ gen n) → (keysOf l).Nodup →
      (keysOf (loadFromTableDetails gen td l)).Nodup) ∧
    (∀ fresh s, fresh ∉ keysOf s.dataSource → (keysOf s.dataSource).Nodup →
      (keysOf (addData fresh s).dataSource).Nodup) ∧
    (∀ k l, (keysOf l).Nodup → (keysOf (deleteData k l)).Nodup) ∧
    (∀ act k l, (keysOf l).Nodup → (keysOf (moveData act k l)).Nodup) ∧
    (∀ a overId l, (keysOf l).Nodup → (keysOf (onDragEnd a overId l)).Nodup) ∧
    (∀ k f v l, (keysOf l).Nodup → (keysOf (handelFieldsChange k f v l)).Nodup) := by
  refine ⟨?_, ?_, ?_, ?_, ?_, ?_, ?_⟩
  · intro k
    simp [initialComponentState, keysOf]
  · intro gen td l hinj hnd
    cases td with
    | none => exact hnd
    | some t =>
      cases t with
      | mk clOpt =>
        cases clOpt with
        | none => simp [loadFromTableDetails, keysOf]
        | some cl => exact keysOf_tagWithKeys_nodup gen hinj cl 0
  · intro fresh s hfresh hnd
    rw [show (addData fresh s).dataSource = s.dataSource ++ [createInitialData fresh] from rfl]
    rw [keysOf_append, List.nodup_append]
    refine ⟨hnd, List.nodup_singleton _, ?_⟩
    intro x hx hmem
    have hxf : x = fresh := by simpa [keysOf, createInitialData] using hmem
    exact hfresh (hxf ▸ hx)
  · intro k l hnd
    exact List.Nodup.sublist (List.Sublist.map _ (List.filter_sublist l)) hnd
  · intro act k l hnd
    have hp : (keysOf (moveData act k l)).Perm (keysOf l) :=
      (moveData_perm act k l).map (fun i : IColumnItem => i.key)
    exact hp.symm.nodup hnd
  · intro a overId l hnd
    have hp : (keysOf (onDragEnd a overId l)).Perm (keysOf l) :=
      (onDragEnd_perm a overId l).map (fun i : IColumnItem => i.key)
    exact hp.symm.nodup hnd
  · intro k f v l hnd
    rw [keysOf_handelFieldsChange]
    exact hnd

/-- C7 witness: every operation applied to concrete states with distinct
keys. -/
theorem keys_nodup_invariant_witness :
    (keysOf (initialComponentState "w").dataSource).Nodup ∧
    (keysOf (loadFromTableDetails witnessGen (some ⟨some sampleList3⟩) [])).Nodup ∧
    (keysOf (addData "w9" ⟨sampleList3, "", []⟩).dataSource).Nodup ∧
    (keysOf (deleteData "k1" sampleList3)).Nodup ∧
    (keysOf (moveData MoveAction.up "k1" sampleList3)).Nodup ∧
    (keysOf (onDragEnd "k0" (some "k2") sampleList3)).Nodup ∧
    (keysOf (handelFieldsChange "k1" FormField.name (FormValue.vStr (some "nm"))
      sampleList3)).Nodup := by
  have h := keys_nodup_invariant
  exact ⟨h.1 "w",
    h.2.1 witnessGen (some ⟨some sampleList3⟩) [] witnessGen_injective (by decide),
    h.2.2.1 "w9" ⟨sampleList3, "", []⟩ (by decide) (by decide),
    h.2.2.2.1 "k1" sampleList3 (by decide),
    h.2.2.2.2.1 MoveAction.up "k1" sampleList3 (by decide),
    h.2.2.2.2.2.1 "k0" (some "k2") sampleList3 (by decide),
    h.2.2.2.2.2.2 "k1" FormField.name (FormValue.vStr (some "nm")) sampleList3 (by decide)⟩
